import Mathlib

/-!
# Verification of the `conq` chunked FIFO queue

Shallow embedding of `conq.go`.  A `Queue` mirrors the Go struct field by
field (the mutex is omitted: every modelled operation is one critical
section, so the sequential semantics of the methods is exactly what the
lock guarantees).  Go slices become Lean lists, the Go `int` fields become
`Int` (for `len`, which the code decrements) or `Nat` (for the indices,
which the code only ever assigns non-negative values).  A Go runtime panic
(out-of-range index, invalid `make` capacity) is modelled as `none`;
a normal return is `some`.
-/

namespace Conq

/-- The `Queue` struct of `conq.go` (the `sync.Mutex` field is not part of
the sequential state). `rx` is the read offset inside the read chunk,
`ry` the read chunk index, `w` the write chunk index. -/
structure Queue (α : Type) where
  Capacity : Int
  items : List (List α)
  len : Int
  rx : Nat
  ry : Nat
  w : Nat
  deriving Repr, DecidableEq

/-- A freshly created queue: `&conq.Queue{Capacity: cap}` — every other
field has its zero value. -/
def mkQueue (α : Type) (cap : Int) : Queue α :=
  { Capacity := cap, items := [], len := 0, rx := 0, ry := 0, w := 0 }

/-- The capacity `newSlice` passes to `make`: `q.Capacity`, with `0`
replaced by `1`. -/
def newSliceCap (capacity : Int) : Int :=
  if capacity = 0 then 1 else capacity

/-- `newSlice`: `make([]interface{}, 1, capacity)` with `slice[0] = e`.
`make` panics (`none`) unless the capacity is at least the length `1`. -/
def newSlice (q : Queue α) (e : α) : Option (List α) :=
  if newSliceCap q.Capacity < 1 then none else some [e]

/-- `Enqueue`: append a fresh chunk when the chunk sequence is empty or the
write index equals its length, otherwise append to the chunk at the write
index (a panic if `w` is past the end). Then `len += 1`. -/
def Enqueue (q : Queue α) (item : α) : Option (Queue α) :=
  if q.items.length = 0 ∨ q.items.length = q.w then
    (newSlice q item).map fun s =>
      { q with items := q.items ++ [s], len := q.len + 1 }
  else if q.w < q.items.length then
    some { q with items := q.items.set q.w (q.items.getD q.w [] ++ [item]),
                  len := q.len + 1 }
  else none

/-- The private `dequeue` method. `none` is a panic; `some (none, q)` is
the `(nil, false)` return; `some (some v, q')` is `(v, true)` with
successor state `q'`. -/
def dequeue (q : Queue α) : Option (Option α × Queue α) :=
  if q.items.length = 0 then some (none, q)
  else
    match q.items.get? q.ry with
    | none => none
    | some chunk =>
      if chunk.length = 0 then some (none, q)
      else
        match chunk.get? q.rx with
        | none => none
        | some val =>
          if chunk.length = q.rx + 1 then
            if q.len - 1 = 0 then
              some (some val,
                { q with items := [], len := q.len - 1, rx := 0, ry := 0, w := 0 })
            else
              some (some val,
                { q with items := q.items.set q.ry [], len := q.len - 1,
                         rx := 0, ry := q.w })
          else
            some (some val,
              { q with len := q.len - 1, rx := q.rx + 1,
                       w := if q.w = q.ry then (if 0 < q.w then 0 else q.ry + 1)
                            else q.w })

/-- Public `Dequeue`: runs `dequeue` under the lock; when `ok` is false the
returned value is `nil`, which is exactly the `none` the model already
produced, so the observable behaviour coincides with `dequeue`. -/
def Dequeue (q : Queue α) : Option (Option α × Queue α) :=
  dequeue q

/-- `Len` returns the `len` field. -/
def Len (q : Queue α) : Int :=
  q.len

/-- Outcome of a `DequeueBlocking` run with bounded fuel:
`value v q'` models returning from the `q.dequeue()` call after the loop,
`timedOut` models the `return nil` taken from the timer branch,
`fault` models a runtime panic inside `dequeue`, and
`running` means the fuel ran out while the loop was still polling. -/
inductive BlockResult (α : Type) where
  | value : Option α → Queue α → BlockResult α
  | timedOut : BlockResult α
  | fault : BlockResult α
  | running : BlockResult α
  deriving Repr, DecidableEq

/-- The polling loop of `DequeueBlocking`.  `elapsed k` tells whether the
`timeout` timer had already fired when the `select` on `timer.C` runs in
the `k`-th iteration (the timer exists only when `0 < timeout`); `env k`
is the queue state found when the lock is re-acquired after the `k`-th
iteration (concurrent enqueuers may have run while the lock was free).
`time.Sleep(interval)` only consumes wall-clock time, which the `elapsed`
oracle already accounts for, so it does not appear in the state. -/
def dequeueBlockingLoop (timeout : Int) (elapsed : Nat → Bool)
    (env : Nat → Queue α) : Nat → Nat → Queue α → BlockResult α
  | 0, _, _ => .running
  | fuel + 1, k, q =>
    if q.len = 0 then
      if 0 < timeout ∧ elapsed k then .timedOut
      else dequeueBlockingLoop timeout elapsed env fuel (k + 1) (env k)
    else
      match dequeue q with
      | none => .fault
      | some (v, q') => .value v q'

/-- `DequeueBlocking(timeout, interval)`: the `interval` argument only
controls how long `time.Sleep` pauses between polls, which the `elapsed`
oracle absorbs, so it does not influence the returned value or state. -/
def DequeueBlocking (timeout interval : Int) (elapsed : Nat → Bool)
    (env : Nat → Queue α) (fuel : Nat) (q : Queue α) : BlockResult α :=
  dequeueBlockingLoop timeout elapsed env fuel 0 q

/-! ## Operation sequences -/

/-- One public mutating operation. -/
inductive Op (α : Type) where
  | enq : α → Op α
  | deq : Op α
  deriving Repr, DecidableEq

/-- Apply one operation (dropping the dequeued value). -/
def step (q : Queue α) : Op α → Option (Queue α)
  | .enq x => Enqueue q x
  | .deq => (dequeue q).map Prod.snd

/-- Run a list of operations left to right. -/
def runOps : Queue α → List (Op α) → Option (Queue α)
  | q, [] => some q
  | q, op :: ops => (step q op).bind fun q' => runOps q' ops

/-- Run a list of enqueues. -/
def runEnqueues : Queue α → List α → Option (Queue α)
  | q, [] => some q
  | q, x :: xs => (Enqueue q x).bind fun q' => runEnqueues q' xs

/-- Run `n` dequeues, collecting each returned value (in order) and the
final state. -/
def dequeueN : Nat → Queue α → Option (List (Option α) × Queue α)
  | 0, q => some ([], q)
  | n + 1, q =>
    (dequeue q).bind fun r =>
      (dequeueN n r.2).map fun p => (r.1 :: p.1, p.2)

/-- Run a list of operations, counting the dequeues that returned a value. -/
def runCount : Queue α → List (Op α) → Option (Queue α × Nat)
  | q, [] => some (q, 0)
  | q, .enq x :: ops => (Enqueue q x).bind fun q' => runCount q' ops
  | q, .deq :: ops =>
    (dequeue q).bind fun r =>
      (runCount r.2 ops).map fun p =>
        (p.1, (if r.1.isSome then 1 else 0) + p.2)

/-- Number of enqueue operations in a list. -/
def countEnq : List (Op α) → Nat
  | [] => 0
  | .enq _ :: ops => countEnq ops + 1
  | .deq :: ops => countEnq ops

/-! ## Abstraction and invariant -/

/-- The chunk the read indices point into (empty when out of range). -/
def readChunk (q : Queue α) : List α :=
  q.items.getD q.ry []

/-- The chunk the write index points into (empty when out of range). -/
def writeChunk (q : Queue α) : List α :=
  q.items.getD q.w []

/-- The logical FIFO content: the unread tail of the read chunk, followed
by the write chunk when that is a distinct allocated chunk. -/
def toList (q : Queue α) : List α :=
  (readChunk q).drop q.rx ++
    (if q.w ≠ q.ry ∧ q.w < q.items.length then writeChunk q else [])

/-- Inductive invariant of every reachable state.  The four disjuncts are:
pristine; reading and writing the same chunk (any other chunk drained);
a single mid-drain chunk with the write index one past the end (next
enqueue allocates); two chunks with the read one mid-drain and the write
index on the other. -/
def Inv (q : Queue α) : Prop :=
  (q.items = [] ∧ q.len = 0 ∧ q.rx = 0 ∧ q.ry = 0 ∧ q.w = 0)
  ∨ (q.w = q.ry ∧ q.rx = 0 ∧ q.ry < q.items.length ∧ q.items.length ≤ 2
      ∧ readChunk q ≠ []
      ∧ (∀ j, j < q.items.length → j ≠ q.ry → q.items.getD j [] = [])
      ∧ q.len = (readChunk q).length)
  ∨ (q.items.length = 1 ∧ q.ry = 0 ∧ q.w = 1 ∧ 1 ≤ q.rx
      ∧ q.rx < (readChunk q).length
      ∧ q.len = ((readChunk q).length : Int) - (q.rx : Int))
  ∨ (q.items.length = 2 ∧ ((q.ry = 0 ∧ q.w = 1) ∨ (q.ry = 1 ∧ q.w = 0))
      ∧ 1 ≤ q.rx ∧ q.rx < (readChunk q).length
      ∧ q.len = ((readChunk q).length : Int) - (q.rx : Int)
          + ((writeChunk q).length : Int))

/-! ## Basic facts about the invariant -/

theorem inv_mkQueue (α : Type) (cap : Int) : Inv (mkQueue α cap) := by
  left
  simp [mkQueue]

theorem toList_mkQueue (α : Type) (cap : Int) : toList (mkQueue α cap) = [] := rfl

theorem len_toList {α : Type} {q : Queue α} (hInv : Inv q) :
    q.len = ((toList q).length : Int) := by
  rcases hInv with ⟨hit, hlen, hrx, hry, hw⟩ |
      ⟨hw, hrx, hry, hle, hne, hothers, hlen⟩ |
      ⟨hit, hry, hw, hrx1, hrx2, hlen⟩ |
      ⟨hit, hryw, hrx1, hrx2, hlen⟩
  · simp [toList, readChunk, hit, hlen, hrx, hry, hw]
  · simp [toList, hw, hrx, hlen]
  · have : ¬ (q.w < q.items.length) := by omega
    simp [toList, this, hlen, List.length_drop]
    omega
  · have hne : q.w ≠ q.ry := by rcases hryw with ⟨h1, h2⟩ | ⟨h1, h2⟩ <;> omega
    have hlt : q.w < q.items.length := by
      rcases hryw with ⟨h1, h2⟩ | ⟨h1, h2⟩ <;> omega
    simp [toList, hne, hlt, hlen, List.length_drop]
    omega

theorem pristine_of_len_zero {α : Type} {q : Queue α} (hInv : Inv q)
    (hlen : q.len = 0) : q = mkQueue α q.Capacity := by
  rcases hInv with ⟨hit, _, hrx, hry, hw⟩ |
      ⟨hw, hrx, hry, hle, hne, hothers, hlen2⟩ |
      ⟨hit, hry, hw, hrx1, hrx2, hlen2⟩ |
      ⟨hit, hryw, hrx1, hrx2, hlen2⟩
  · obtain ⟨cap, items, len, rx, ry, w⟩ := q
    simp_all [mkQueue]
  · exfalso
    have : 0 < (readChunk q).length := List.length_pos.mpr hne
    omega
  · omega
  · omega

/-! ## Enqueue simulation -/

theorem enqueue_total {α : Type} {q : Queue α} (hInv : Inv q)
    (hcap : 0 ≤ q.Capacity) (x : α) : (Enqueue q x).isSome := by
  have hns : newSlice q x = some [x] := by
    rw [newSlice, newSliceCap]
    split
    · simp
    · rw [if_neg (by omega)]
  rw [Enqueue]
  split
  · rw [hns]
    simp
  · rename_i hcond
    rw [if_pos]
    · simp
    · rcases hInv with ⟨hit, hlen, hrx, hry, hw⟩ |
          ⟨hw, hrx, hry, hle, hne, hothers, hlen⟩ |
          ⟨hit, hry, hw, hrx1, hrx2, hlen⟩ |
          ⟨hit, hryw, hrx1, hrx2, hlen⟩
      · exact absurd (Or.inl (by simp [hit])) hcond
      · omega
      · exact absurd (Or.inr (by omega)) hcond
      · rcases hryw with ⟨h1, h2⟩ | ⟨h1, h2⟩ <;> omega

theorem enqueue_sound {α : Type} {q q' : Queue α} {x : α}
    (hInv : Inv q) (h : Enqueue q x = some q') :
    Inv q' ∧ toList q' = toList q ++ [x] ∧ q'.Capacity = q.Capacity
      ∧ q'.len = q.len + 1 := by
  obtain ⟨cap, items, len, rx, ry, w⟩ := q
  rw [Enqueue] at h
  split at h
  case isTrue hcond =>
    rw [newSlice] at h
    split at h
    · simp at h
    · rw [Option.map_some'] at h
      injection h with h
      subst h
      rcases hInv with ⟨hit, hlen, hrx, hry, hw⟩ |
          ⟨hw, hrx, hry, hle, hne, hothers, hlen⟩ |
          ⟨hit, hry, hw, hrx1, hrx2, hlen⟩ |
          ⟨hit, hryw, hrx1, hrx2, hlen⟩
      · -- pristine: first chunk
        simp only at hit hlen hrx hry hw
        subst hit hlen hrx hry hw
        refine ⟨Or.inr (Or.inl ?_), ?_, by trivial, by trivial⟩
        · refine ⟨rfl, rfl, by simp, by simp, by simp [readChunk], ?_, by simp [readChunk]⟩
          intro j hj hj0
          simp at hj hj0
          omega
        · simp [toList, readChunk, writeChunk]
      · -- read=write chunk exists: guard contradiction
        exfalso
        simp only at hcond hw hry
        rcases hcond with h0 | h0 <;> omega
      · -- one mid-drain chunk, w = 1 = length: allocate second chunk
        simp only at hit hry hw hrx1 hrx2 hlen ⊢
        obtain ⟨c0, hc0⟩ := List.length_eq_one.mp hit
        subst hc0 hry hw
        refine ⟨Or.inr (Or.inr (Or.inr ?_)), ?_, by trivial, by trivial⟩
        · refine ⟨by simp, Or.inl ⟨rfl, rfl⟩, hrx1, ?_, ?_⟩
          · simp only [readChunk] at hrx2 ⊢
            simpa using hrx2
          · simp only [readChunk, writeChunk] at hlen ⊢
            simp at hlen ⊢
            omega
        · simp [toList, readChunk, writeChunk]
      · -- two chunks: guard contradiction
        exfalso
        simp only at hcond hit hryw
        rcases hryw with ⟨h1, h2⟩ | ⟨h1, h2⟩ <;> rcases hcond with h0 | h0 <;> omega
  case isFalse hcond =>
    split at h
    case isFalse => exact absurd h (by simp)
    case isTrue hlt =>
      injection h with h
      subst h
      rcases hInv with ⟨hit, hlen, hrx, hry, hw⟩ |
          ⟨hw, hrx, hry, hle, hne, hothers, hlen⟩ |
          ⟨hit, hry, hw, hrx1, hrx2, hlen⟩ |
          ⟨hit, hryw, hrx1, hrx2, hlen⟩
      · simp only at hcond hit
        exact absurd (Or.inl (by simp [hit])) hcond
      · -- append into the chunk both indices share
        simp only at hcond hlt hw hrx hry hle hne hothers hlen ⊢
        subst hrx
        rcases items with _ | ⟨c0, _ | ⟨c1, _ | ⟨c2, rest⟩⟩⟩
        · simp at hry
        · have hry0 : ry = 0 := by simp at hry; omega
          subst hry0
          have hw0 : w = 0 := hw
          subst hw0
          refine ⟨Or.inr (Or.inl ?_), ?_, by trivial, by trivial⟩
          · refine ⟨rfl, rfl, by simp, by simp, ?_, ?_, ?_⟩
            · simp [readChunk]
            · intro j hj hj0
              simp at hj hj0
              omega
            · simp only [readChunk] at hlen ⊢
              simp at hlen ⊢
              omega
          · simp [toList, readChunk, writeChunk]
        · have hry01 : ry = 0 ∨ ry = 1 := by simp at hry; omega
          rcases hry01 with hry0 | hry0
          · subst hry0
            have hw0 : w = 0 := hw
            subst hw0
            have hc1 : c1 = [] := by
              have := hothers 1 (by simp) (by omega)
              simpa using this
            subst hc1
            refine ⟨Or.inr (Or.inl ?_), ?_, by trivial, by trivial⟩
            · refine ⟨rfl, rfl, by simp, by simp, ?_, ?_, ?_⟩
              · simp [readChunk]
              · intro j hj hj0
                simp at hj hj0
                have hj1 : j = 1 := by omega
                subst hj1
                simp
              · simp only [readChunk] at hlen ⊢
                simp at hlen ⊢
                omega
            · simp [toList, readChunk, writeChunk]
          · subst hry0
            have hw1 : w = 1 := hw
            subst hw1
            have hc0 : c0 = [] := by
              have := hothers 0 (by simp) (by omega)
              simpa using this
            subst hc0
            refine ⟨Or.inr (Or.inl ?_), ?_, by trivial, by trivial⟩
            · refine ⟨rfl, rfl, by simp, by simp, ?_, ?_, ?_⟩
              · simp [readChunk]
              · intro j hj hj0
                simp at hj hj0
                have hj1 : j = 0 := by omega
                subst hj1
                simp
              · simp only [readChunk] at hlen ⊢
                simp at hlen ⊢
                omega
            · simp [toList, readChunk, writeChunk]
        · simp at hle
      · -- one chunk with w = 1: guard contradiction
        simp only at hcond hit hw
        exact absurd (Or.inr (by omega)) hcond
      · -- two chunks, append into the write chunk
        simp only at hcond hlt hit hryw hrx1 hrx2 hlen ⊢
        obtain ⟨c0, c1, hc⟩ := List.length_eq_two.mp hit
        subst hc
        rcases hryw with ⟨hry0, hw1⟩ | ⟨hry1, hw0⟩
        · subst hry0 hw1
          refine ⟨Or.inr (Or.inr (Or.inr ?_)), ?_, by trivial, by trivial⟩
          · refine ⟨by simp, Or.inl ⟨rfl, rfl⟩, hrx1, ?_, ?_⟩
            · simp only [readChunk] at hrx2 ⊢
              simpa using hrx2
            · simp only [readChunk, writeChunk] at hlen ⊢
              simp at hlen ⊢
              omega
          · simp [toList, readChunk, writeChunk]
        · subst hry1 hw0
          refine ⟨Or.inr (Or.inr (Or.inr ?_)), ?_, by trivial, by trivial⟩
          · refine ⟨by simp, Or.inr ⟨rfl, rfl⟩, hrx1, ?_, ?_⟩
            · simp only [readChunk] at hrx2 ⊢
              simpa using hrx2
            · simp only [readChunk, writeChunk] at hlen ⊢
              simp at hlen ⊢
              omega
          · simp [toList, readChunk, writeChunk]


/-! ## Dequeue simulation -/

theorem dequeue_empty {α : Type} {q : Queue α} (hInv : Inv q) (h0 : q.len = 0) :
    dequeue q = some (none, q) := by
  have hq := pristine_of_len_zero hInv h0
  have hit : q.items = [] := by rw [hq]; rfl
  rw [dequeue, if_pos (by simp [hit])]

theorem dequeue_pos {α : Type} {q : Queue α} (hInv : Inv q) (hq : 0 < q.len) :
    ∃ v q', dequeue q = some (some v, q') ∧ Inv q' ∧ toList q = v :: toList q'
      ∧ q'.Capacity = q.Capacity ∧ q'.len = q.len - 1 := by
  obtain ⟨cap, items, len, rx, ry, w⟩ := q
  rcases hInv with ⟨hit, hlen, hrx, hry, hw⟩ |
      ⟨hw, hrx, hry, hle, hne, hothers, hlen⟩ |
      ⟨hit, hry, hw, hrx1, hrx2, hlen⟩ |
      ⟨hit, hryw, hrx1, hrx2, hlen⟩
  · -- pristine: contradicts 0 < len
    simp only at hlen hq
    omega
  · -- reading and writing the same chunk
    simp only at hq hw hrx hry hle hne hothers hlen
    subst hrx
    rcases items with _ | ⟨c0, _ | ⟨c1, _ | ⟨c2, rest⟩⟩⟩
    · simp at hry
    · have hry0 : ry = 0 := by simp at hry; omega
      subst hry0
      have hw0 : w = 0 := hw
      subst hw0
      simp only [readChunk, List.getD_cons_zero] at hne hlen
      rcases c0 with _ | ⟨v, rest⟩
      · exact absurd rfl hne
      · simp only [List.length_cons] at hlen
        rcases rest with _ | ⟨r1, rs⟩
        · -- single element: full reset
          refine ⟨v, ⟨cap, [], len - 1, 0, 0, 0⟩, ?_, ?_, ?_, by trivial, by trivial⟩
          · have hz : len - 1 = 0 := by simp at hlen; omega
            simp [dequeue, hz]
          · left
            refine ⟨rfl, ?_, rfl, rfl, rfl⟩
            simp at hlen ⊢
            omega
          · simp [toList, readChunk, writeChunk]
        · -- more elements: start mid-drain, write index one past the end
          have hz : ¬ (len - 1 = 0) := by simp at hlen; omega
          refine ⟨v, ⟨cap, [v :: r1 :: rs], len - 1, 1, 0, 1⟩,
              ?_, ?_, ?_, by trivial, by trivial⟩
          · simp [dequeue, hz]
          · right; right; left
            refine ⟨by simp, rfl, rfl, le_refl 1, ?_, ?_⟩
            · simp [readChunk]
            · simp [readChunk] at hlen ⊢
              omega
          · simp [toList, readChunk, writeChunk]
    · have hry01 : ry = 0 ∨ ry = 1 := by simp at hry; omega
      rcases hry01 with hry0 | hry0
      · subst hry0
        have hw0 : w = 0 := hw
        subst hw0
        have hc1 : c1 = [] := by
          have := hothers 1 (by simp) (by omega)
          simpa using this
        subst hc1
        simp only [readChunk, List.getD_cons_zero] at hne hlen
        rcases c0 with _ | ⟨v, rest⟩
        · exact absurd rfl hne
        · simp only [List.length_cons] at hlen
          rcases rest with _ | ⟨r1, rs⟩
          · -- drained the only full chunk: full reset
            refine ⟨v, ⟨cap, [], len - 1, 0, 0, 0⟩, ?_, ?_, ?_, by trivial, by trivial⟩
            · have hz : len - 1 = 0 := by simp at hlen; omega
              simp [dequeue, hz]
            · left
              refine ⟨rfl, ?_, rfl, rfl, rfl⟩
              simp at hlen ⊢
              omega
            · simp [toList, readChunk, writeChunk]
          · -- mid-drain; writes redirected to the lazily allocated second chunk
            have hz : ¬ (len - 1 = 0) := by simp at hlen; omega
            refine ⟨v, ⟨cap, [v :: r1 :: rs, []], len - 1, 1, 0, 1⟩,
                ?_, ?_, ?_, by trivial, by trivial⟩
            · simp [dequeue, hz]
            · right; right; right
              refine ⟨by simp, Or.inl ⟨rfl, rfl⟩, le_refl 1, ?_, ?_⟩
              · simp [readChunk]
              · simp [readChunk, writeChunk] at hlen ⊢
                omega
            · simp [toList, readChunk, writeChunk]
      · subst hry0
        have hw1 : w = 1 := hw
        subst hw1
        have hc0 : c0 = [] := by
          have := hothers 0 (by simp) (by omega)
          simpa using this
        subst hc0
        simp only [readChunk, List.getD_cons_succ, List.getD_cons_zero] at hne hlen
        rcases c1 with _ | ⟨v, rest⟩
        · exact absurd rfl hne
        · simp only [List.length_cons] at hlen
          rcases rest with _ | ⟨r1, rs⟩
          · -- drained the second chunk: full reset
            refine ⟨v, ⟨cap, [], len - 1, 0, 0, 0⟩, ?_, ?_, ?_, by trivial, by trivial⟩
            · have hz : len - 1 = 0 := by simp at hlen; omega
              simp [dequeue, hz]
            · left
              refine ⟨rfl, ?_, rfl, rfl, rfl⟩
              simp at hlen ⊢
              omega
            · simp [toList, readChunk, writeChunk]
          · -- mid-drain; writes redirected back to the empty first chunk
            have hz : ¬ (len - 1 = 0) := by simp at hlen; omega
            refine ⟨v, ⟨cap, [[], v :: r1 :: rs], len - 1, 1, 1, 0⟩,
                ?_, ?_, ?_, by trivial, by trivial⟩
            · simp [dequeue, hz]
            · right; right; right
              refine ⟨by simp, Or.inr ⟨rfl, rfl⟩, le_refl 1, ?_, ?_⟩
              · simp [readChunk]
              · simp [readChunk, writeChunk] at hlen ⊢
                omega
            · simp [toList, readChunk, writeChunk]
    · exact absurd hle (by simp)
  · -- one mid-drain chunk, write index one past the end
    simp only at hq hit hry hw hrx1 hrx2 hlen
    obtain ⟨c0, hc0⟩ := List.length_eq_one.mp hit
    subst hc0 hry hw
    simp only [readChunk, List.getD_cons_zero] at hrx2 hlen
    have h0 : ¬ (c0.length = 0) := by omega
    have hget : c0[rx]? = some (c0.get ⟨rx, hrx2⟩) := by
      simp [List.getElem?_eq_getElem hrx2]
    by_cases hlast : c0.length = rx + 1
    · -- last element: full reset
      have hz : len - 1 = 0 := by omega
      refine ⟨c0.get ⟨rx, hrx2⟩, ⟨cap, [], len - 1, 0, 0, 0⟩,
          ?_, ?_, ?_, by trivial, by trivial⟩
      · simp [dequeue, h0, hget, hlast, hz]
      · left
        exact ⟨rfl, hz, rfl, rfl, rfl⟩
      · have hdrop : c0.drop rx = [c0.get ⟨rx, hrx2⟩] := by
          rw [List.drop_eq_getElem_cons hrx2, List.drop_eq_nil_of_le (by omega)]
          simp
        simp only [toList, readChunk, writeChunk, List.getD_cons_zero,
          List.getD_cons_succ]
        rw [hdrop]
        simp
    · -- not the last element: advance the read offset
      refine ⟨c0.get ⟨rx, hrx2⟩, ⟨cap, [c0], len - 1, rx + 1, 0, 1⟩,
          ?_, ?_, ?_, by trivial, by trivial⟩
      · simp [dequeue, h0, hget, hlast]
      · right; right; left
        refine ⟨by simp, rfl, rfl, Nat.succ_le_succ (Nat.zero_le rx), ?_, ?_⟩
        · simp [readChunk]
          omega
        · simp [readChunk]
          omega
      · have hdrop : c0.drop rx = c0.get ⟨rx, hrx2⟩ :: c0.drop (rx + 1) := by
          rw [List.drop_eq_getElem_cons hrx2]
          simp
        simp only [toList, readChunk, writeChunk, List.getD_cons_zero,
          List.getD_cons_succ]
        rw [hdrop]
        simp
  · -- two chunks, read chunk mid-drain
    simp only at hq hit hryw hrx1 hrx2 hlen
    obtain ⟨c0, c1, hc⟩ := List.length_eq_two.mp hit
    subst hc
    rcases hryw with ⟨hry0, hw1⟩ | ⟨hry1, hw0⟩
    · -- reading chunk 0, writing chunk 1
      subst hry0 hw1
      simp only [readChunk, writeChunk, List.getD_cons_zero, List.getD_cons_succ]
        at hrx2 hlen
      have h0 : ¬ (c0.length = 0) := by omega
      have hget : c0[rx]? = some (c0.get ⟨rx, hrx2⟩) := by
        simp [List.getElem?_eq_getElem hrx2]
      by_cases hlast : c0.length = rx + 1
      · have hdrop : c0.drop rx = [c0.get ⟨rx, hrx2⟩] := by
          rw [List.drop_eq_getElem_cons hrx2, List.drop_eq_nil_of_le (by omega)]
          simp
        rcases c1 with _ | ⟨v1, c1t⟩
        · -- write chunk empty: draining the read chunk empties the queue
          have hz : len - 1 = 0 := by simp at hlen; omega
          refine ⟨c0.get ⟨rx, hrx2⟩, ⟨cap, [], len - 1, 0, 0, 0⟩,
              ?_, ?_, ?_, by trivial, by trivial⟩
          · simp [dequeue, h0, hget, hlast, hz]
          · left
            exact ⟨rfl, hz, rfl, rfl, rfl⟩
          · simp [toList, readChunk, writeChunk, hdrop]
        · -- write chunk non-empty: it becomes the read chunk
          have hz : ¬ (len - 1 = 0) := by simp at hlen; omega
          refine ⟨c0.get ⟨rx, hrx2⟩, ⟨cap, [[], v1 :: c1t], len - 1, 0, 1, 1⟩,
              ?_, ?_, ?_, by trivial, by trivial⟩
          · simp [dequeue, h0, hget, hlast, hz]
          · right; left
            refine ⟨rfl, rfl, by simp, by simp, by simp [readChunk], ?_, ?_⟩
            · intro j hj hj0
              simp at hj hj0
              have hj00 : j = 0 := by omega
              subst hj00
              simp
            · simp [readChunk] at hlen ⊢
              omega
          · simp [toList, readChunk, writeChunk, hdrop]
      · -- not the last element: advance the read offset (write index differs)
        refine ⟨c0.get ⟨rx, hrx2⟩, ⟨cap, [c0, c1], len - 1, rx + 1, 0, 1⟩,
            ?_, ?_, ?_, by trivial, by trivial⟩
        · simp [dequeue, h0, hget, hlast]
        · right; right; right
          refine ⟨by simp, Or.inl ⟨rfl, rfl⟩, Nat.succ_le_succ (Nat.zero_le rx), ?_, ?_⟩
          · simp [readChunk]
            omega
          · simp [readChunk, writeChunk] at hlen ⊢
            omega
        · have hdrop : c0.drop rx = c0.get ⟨rx, hrx2⟩ :: c0.drop (rx + 1) := by
            rw [List.drop_eq_getElem_cons hrx2]
            simp
          simp only [toList, readChunk, writeChunk, List.getD_cons_zero,
            List.getD_cons_succ]
          rw [hdrop, List.cons_append]
    · -- reading chunk 1, writing chunk 0
      subst hry1 hw0
      simp only [readChunk, writeChunk, List.getD_cons_zero, List.getD_cons_succ]
        at hrx2 hlen
      have h0 : ¬ (c1.length = 0) := by omega
      have hget : c1[rx]? = some (c1.get ⟨rx, hrx2⟩) := by
        simp [List.getElem?_eq_getElem hrx2]
      by_cases hlast : c1.length = rx + 1
      · have hdrop : c1.drop rx = [c1.get ⟨rx, hrx2⟩] := by
          rw [List.drop_eq_getElem_cons hrx2, List.drop_eq_nil_of_le (by omega)]
          simp
        rcases c0 with _ | ⟨v0, c0t⟩
        · have hz : len - 1 = 0 := by simp at hlen; omega
          refine ⟨c1.get ⟨rx, hrx2⟩, ⟨cap, [], len - 1, 0, 0, 0⟩,
              ?_, ?_, ?_, by trivial, by trivial⟩
          · simp [dequeue, h0, hget, hlast, hz]
          · left
            exact ⟨rfl, hz, rfl, rfl, rfl⟩
          · simp [toList, readChunk, writeChunk, hdrop]
        · have hz : ¬ (len - 1 = 0) := by simp at hlen; omega
          refine ⟨c1.get ⟨rx, hrx2⟩, ⟨cap, [v0 :: c0t, []], len - 1, 0, 0, 0⟩,
              ?_, ?_, ?_, by trivial, by trivial⟩
          · simp [dequeue, h0, hget, hlast, hz]
          · right; left
            refine ⟨rfl, rfl, by simp, by simp, by simp [readChunk], ?_, ?_⟩
            · intro j hj hj0
              simp at hj hj0
              have hj11 : j = 1 := by omega
              subst hj11
              simp
            · simp [readChunk] at hlen ⊢
              omega
          · simp [toList, readChunk, writeChunk, hdrop]
      · refine ⟨c1.get ⟨rx, hrx2⟩, ⟨cap, [c0, c1], len - 1, rx + 1, 1, 0⟩,
            ?_, ?_, ?_, by trivial, by trivial⟩
        · simp [dequeue, h0, hget, hlast]
        · right; right; right
          refine ⟨by simp, Or.inr ⟨rfl, rfl⟩, Nat.succ_le_succ (Nat.zero_le rx), ?_, ?_⟩
          · simp [readChunk]
            omega
          · simp [readChunk, writeChunk] at hlen ⊢
            omega
        · have hdrop : c1.drop rx = c1.get ⟨rx, hrx2⟩ :: c1.drop (rx + 1) := by
            rw [List.drop_eq_getElem_cons hrx2]
            simp
          simp only [toList, readChunk, writeChunk, List.getD_cons_zero,
            List.getD_cons_succ]
          rw [hdrop, List.cons_append]


/-! ## Runs of operations -/

theorem step_inv {α : Type} {q q' : Queue α} {op : Op α} (hInv : Inv q)
    (h : step q op = some q') : Inv q' ∧ q'.Capacity = q.Capacity := by
  cases op with
  | enq x =>
    have := enqueue_sound hInv h
    exact ⟨this.1, this.2.2.1⟩
  | deq =>
    simp only [step] at h
    by_cases h0 : q.len = 0
    · rw [dequeue_empty hInv h0] at h
      simp at h
      rw [← h]
      exact ⟨hInv, rfl⟩
    · have hpos : 0 < q.len := by
        have := len_toList hInv
        omega
      obtain ⟨v, q2, heq, hInv2, _, hcap, _⟩ := dequeue_pos hInv hpos
      rw [heq] at h
      simp at h
      rw [← h]
      exact ⟨hInv2, hcap⟩

theorem runOps_inv {α : Type} {ops : List (Op α)} {q0 q : Queue α} (hInv : Inv q0)
    (h : runOps q0 ops = some q) : Inv q ∧ q.Capacity = q0.Capacity := by
  induction ops generalizing q0 with
  | nil =>
    simp only [runOps] at h
    injection h with h
    subst h
    exact ⟨hInv, rfl⟩
  | cons op ops ih =>
    simp only [runOps] at h
    rcases hstep : step q0 op with _ | q1
    · rw [hstep] at h
      simp at h
    · rw [hstep] at h
      simp only [Option.some_bind] at h
      obtain ⟨hInv1, hcap1⟩ := step_inv hInv hstep
      obtain ⟨hInvq, hcapq⟩ := ih hInv1 h
      exact ⟨hInvq, hcap1 ▸ hcapq⟩

theorem runEnqueues_sound {α : Type} {q0 : Queue α} (hInv : Inv q0)
    (hcap : 0 ≤ q0.Capacity) (xs : List α) :
    ∃ q, runEnqueues q0 xs = some q ∧ Inv q ∧ toList q = toList q0 ++ xs
      ∧ q.Capacity = q0.Capacity := by
  induction xs generalizing q0 with
  | nil => exact ⟨q0, rfl, hInv, by simp, rfl⟩
  | cons x xs ih =>
    have htot := enqueue_total hInv hcap x
    rcases heq : Enqueue q0 x with _ | q1
    · rw [heq] at htot
      simp at htot
    · obtain ⟨hInv1, hto1, hcap1, _⟩ := enqueue_sound hInv heq
      obtain ⟨q, hrun, hInvq, htoq, hcapq⟩ := ih hInv1 (by rw [hcap1]; exact hcap)
      refine ⟨q, ?_, hInvq, ?_, by rw [hcapq, hcap1]⟩
      · simp only [runEnqueues, heq, Option.some_bind]
        exact hrun
      · rw [htoq, hto1]
        simp

theorem drain_all {α : Type} {q : Queue α} (hInv : Inv q) :
    dequeueN (toList q).length q
      = some ((toList q).map some, mkQueue α q.Capacity) := by
  generalize hn : (toList q).length = n
  induction n generalizing q with
  | zero =>
    have hnil : toList q = [] := List.length_eq_zero.mp hn
    have h0 : q.len = 0 := by
      have := len_toList hInv
      rw [hnil] at this
      simpa using this
    have := pristine_of_len_zero hInv h0
    rw [hnil]
    simp only [dequeueN, List.map_nil]
    rw [← this]
  | succ n ih =>
    have hpos : 0 < q.len := by
      have := len_toList hInv
      omega
    obtain ⟨v, q', heq, hInv', hto, hcap, _⟩ := dequeue_pos hInv hpos
    have hn' : (toList q').length = n := by
      have : (toList q).length = (v :: toList q').length := by rw [hto]
      simp at this
      omega
    simp only [dequeueN, heq, Option.some_bind]
    rw [ih hInv' hn', hcap]
    simp [hto]

theorem runCount_len {α : Type} {ops : List (Op α)} {q0 qf : Queue α} {d : Nat}
    (hInv : Inv q0) (h : runCount q0 ops = some (qf, d)) :
    Inv qf ∧ qf.Capacity = q0.Capacity
      ∧ qf.len = q0.len + (countEnq ops : Int) - (d : Int) := by
  induction ops generalizing q0 d with
  | nil =>
    simp only [runCount] at h
    injection h with h
    rw [Prod.ext_iff] at h
    obtain ⟨h1, h2⟩ := h
    simp only at h1 h2
    subst h1
    subst h2
    exact ⟨hInv, rfl, by simp [countEnq]⟩
  | cons op ops ih =>
    cases op with
    | enq x =>
      simp only [runCount] at h
      rcases heq : Enqueue q0 x with _ | q1
      · rw [heq] at h
        simp at h
      · rw [heq] at h
        simp only [Option.some_bind] at h
        obtain ⟨hInv1, _, hcap1, hlen1⟩ := enqueue_sound hInv heq
        obtain ⟨hI, hC, hL⟩ := ih hInv1 h
        refine ⟨hI, by rw [hC, hcap1], ?_⟩
        rw [hL, hlen1]
        simp only [countEnq]
        push_cast
        ring
    | deq =>
      simp only [runCount] at h
      by_cases h0 : q0.len = 0
      · rw [dequeue_empty hInv h0] at h
        simp only [Option.some_bind] at h
        rcases hrc : runCount q0 ops with _ | p
        · rw [hrc] at h
          simp at h
        · rw [hrc] at h
          rcases p with ⟨q3, d2⟩
          simp at h
          obtain ⟨h1, h2⟩ := h
          subst h1
          subst h2
          obtain ⟨hI, hC, hL⟩ := ih hInv hrc
          refine ⟨hI, hC, ?_⟩
          rw [hL]
          simp only [countEnq]
      · have hpos : 0 < q0.len := by
          have := len_toList hInv
          omega
        obtain ⟨v, q2, heq, hInv2, _, hcap2, hlen2⟩ := dequeue_pos hInv hpos
        rw [heq] at h
        simp only [Option.some_bind] at h
        rcases hrc : runCount q2 ops with _ | p
        · rw [hrc] at h
          simp at h
        · rw [hrc] at h
          rcases p with ⟨q3, d2⟩
          simp at h
          obtain ⟨h1, h2⟩ := h
          subst h1
          obtain ⟨hI, hC, hL⟩ := ih hInv2 hrc
          refine ⟨hI, by rw [hC, hcap2], ?_⟩
          rw [hL, hlen2]
          simp only [countEnq]
          omega

/-! ## Claims -/

/-- C1: FIFO order — for every sequence of N enqueues performed sequentially
followed by N dequeues, each dequeue returns a value and the sequence of
dequeued items equals the sequence of enqueued items exactly, in order,
regardless of which internal chunk held each item. -/
theorem C1_fifo_order {α : Type} (cap : Int) (hcap : 0 ≤ cap) (xs : List α) :
    ∃ q, runEnqueues (mkQueue α cap) xs = some q
      ∧ dequeueN xs.length q = some (xs.map some, mkQueue α cap) := by
  obtain ⟨q, hrun, hInv, hto, hcapq⟩ :=
    runEnqueues_sound (inv_mkQueue α cap) hcap xs
  refine ⟨q, hrun, ?_⟩
  have hto' : toList q = xs := by
    rw [hto, toList_mkQueue]
    simp
  have hcapq' : q.Capacity = cap := hcapq
  have := drain_all hInv
  rw [hto', hcapq'] at this
  exact this

/-- C1 witness: three enqueues then three dequeues on a capacity-2 queue. -/
theorem C1_fifo_order_witness :
    ∃ q, runEnqueues (mkQueue Int 2) [1, 2, 3] = some q
      ∧ dequeueN 3 q = some ([some 1, some 2, some 3], mkQueue Int 2) :=
  C1_fifo_order 2 (by decide) [1, 2, 3]

/-- C2: length accounting — after any sequential interleaving of E enqueues
and D dequeues of which exactly D' returned a value, `Len` returns E - D'
(and D' ≤ E). -/
theorem C2_length_accounting {α : Type} (cap : Int) (ops : List (Op α))
    (q : Queue α) (d : Nat) (h : runCount (mkQueue α cap) ops = some (q, d)) :
    Len q = (countEnq ops : Int) - (d : Int) ∧ (d : Int) ≤ (countEnq ops : Int) := by
  obtain ⟨hI, _, hL⟩ := runCount_len (inv_mkQueue α cap) h
  have hmk : (mkQueue α cap).len = 0 := rfl
  rw [hmk] at hL
  have hpos : (0 : Int) ≤ q.len := by
    have := len_toList hI
    omega
  exact ⟨by rw [Len, hL]; ring, by omega⟩

/-- C2 witness: one enqueue, two dequeues; the second dequeue returns no
value, so the length is 1 - 1 = 0. -/
theorem C2_length_accounting_witness :
    Len (mkQueue Int 7) = ((countEnq [Op.enq 5, Op.deq, Op.deq] : Nat) : Int) - (1 : Int)
      ∧ ((1 : Nat) : Int) ≤ ((countEnq [Op.enq 5, Op.deq, Op.deq] : Nat) : Int) :=
  C2_length_accounting 7 [Op.enq 5, Op.deq, Op.deq] (mkQueue Int 7) 1 (by decide)

/-- C3: return to pristine — in every reachable state with length 0, the
chunk sequence is empty, the read offset and both chunk indices are zero,
and the state is exactly a freshly created queue of the same capacity. -/
theorem C3_return_to_pristine {α : Type} (cap : Int) (ops : List (Op α))
    (q : Queue α) (h : runOps (mkQueue α cap) ops = some q) (h0 : q.len = 0) :
    q.items = [] ∧ q.rx = 0 ∧ q.ry = 0 ∧ q.w = 0 ∧ q = mkQueue α cap := by
  obtain ⟨hI, hC⟩ := runOps_inv (inv_mkQueue α cap) h
  have hC' : q.Capacity = cap := hC
  have hp := pristine_of_len_zero hI h0
  rw [hC'] at hp
  subst hp
  exact ⟨rfl, rfl, rfl, rfl, rfl⟩

/-- C3 witness: enqueue then dequeue drains the queue back to the pristine
creation-time state. -/
theorem C3_return_to_pristine_witness :
    (mkQueue Int 4).items = [] ∧ (mkQueue Int 4).rx = 0 ∧ (mkQueue Int 4).ry = 0
      ∧ (mkQueue Int 4).w = 0 ∧ mkQueue Int 4 = mkQueue Int 4 :=
  C3_return_to_pristine 4 [Op.enq 9, Op.deq] (mkQueue Int 4) (by decide) (by decide)

/-- C4: empty contract with atomicity — in every reachable state with
length 0, `Dequeue` returns the empty sentinel and leaves the state
unchanged, and `Len` still returns 0. -/
theorem C4_empty_dequeue {α : Type} (cap : Int) (ops : List (Op α))
    (q : Queue α) (h : runOps (mkQueue α cap) ops = some q) (h0 : q.len = 0) :
    Dequeue q = some (none, q) ∧ Len q = 0 := by
  obtain ⟨hI, _⟩ := runOps_inv (inv_mkQueue α cap) h
  exact ⟨dequeue_empty hI h0, h0⟩

/-- C4 witness: dequeuing a freshly created queue yields the sentinel and
leaves the state unchanged. -/
theorem C4_empty_dequeue_witness :
    Dequeue (mkQueue Int 3) = some (none, mkQueue Int 3) ∧ Len (mkQueue Int 3) = 0 :=
  C4_empty_dequeue 3 [] (mkQueue Int 3) (by decide) (by decide)

/-- C9: implicit two-chunk bound — every state reachable from a fresh queue
has at most two chunks, and both the write and read chunk indices are in
{0, 1}. -/
theorem C9_two_chunk_bound {α : Type} (cap : Int) (ops : List (Op α))
    (q : Queue α) (h : runOps (mkQueue α cap) ops = some q) :
    q.items.length ≤ 2 ∧ q.w ≤ 1 ∧ q.ry ≤ 1 := by
  obtain ⟨hI, _⟩ := runOps_inv (inv_mkQueue α cap) h
  rcases hI with ⟨hit, _, _, hry, hw⟩ |
      ⟨hw, _, hry, hle, _, _, _⟩ |
      ⟨hit, hry, hw, _, _, _⟩ |
      ⟨hit, hryw, _, _, _⟩
  · rw [hit]
    exact ⟨by simp, by omega, by omega⟩
  · omega
  · omega
  · rcases hryw with ⟨h1, h2⟩ | ⟨h1, h2⟩ <;> omega

/-- C9 witness: a mid-drain interleaving that exercises both chunks. -/
theorem C9_two_chunk_bound_witness :
    ∃ q, runOps (mkQueue Int 1) [Op.enq 1, Op.enq 2, Op.deq, Op.enq 3] = some q
      ∧ q.items.length ≤ 2 ∧ q.w ≤ 1 ∧ q.ry ≤ 1 := by
  refine ⟨⟨1, [[1, 2], [3]], 2, 1, 0, 1⟩, by decide, ?_⟩
  exact C9_two_chunk_bound 1 [Op.enq 1, Op.enq 2, Op.deq, Op.enq 3] _ (by decide)

/-- C10: implicit non-empty success — in every reachable state with positive
length the chunk sequence and the read chunk are non-empty and `Dequeue`
returns a stored item; `Dequeue` yields the empty sentinel iff length is 0. -/
theorem C10_nonempty_success {α : Type} (cap : Int) (ops : List (Op α))
    (q : Queue α) (h : runOps (mkQueue α cap) ops = some q) :
    (0 < q.len → q.items ≠ [] ∧ q.items.getD q.ry [] ≠ []
      ∧ ∃ v q', Dequeue q = some (some v, q'))
    ∧ ((∃ q2, Dequeue q = some (none, q2)) ↔ q.len = 0) := by
  obtain ⟨hI, _⟩ := runOps_inv (inv_mkQueue α cap) h
  constructor
  · intro hpos
    obtain ⟨v, q', heq, _, _, _, _⟩ := dequeue_pos hI hpos
    refine ⟨?_, ?_, v, q', heq⟩
    · rcases hI with ⟨_, hlen, _, _, _⟩ | ⟨_, _, hry, _, _, _, _⟩ |
          ⟨hit, _, _, _, _, _⟩ | ⟨hit, _, _, _, _⟩
      · omega
      · intro hnil
        rw [hnil] at hry
        simp at hry
      · intro hnil
        rw [hnil] at hit
        simp at hit
      · intro hnil
        rw [hnil] at hit
        simp at hit
    · rcases hI with ⟨_, hlen, _, _, _⟩ | ⟨_, _, _, _, hne, _, _⟩ |
          ⟨_, _, _, _, hrx2, _⟩ | ⟨_, _, _, hrx2, _⟩
      · omega
      · exact hne
      · intro hnil
        rw [readChunk] at hrx2
        rw [hnil] at hrx2
        simp at hrx2
      · intro hnil
        rw [readChunk] at hrx2
        rw [hnil] at hrx2
        simp at hrx2
  · constructor
    · rintro ⟨q2, heq⟩
      by_contra h0
      have hpos : 0 < q.len := by
        have := len_toList hI
        omega
      obtain ⟨v, q', heq2, _, _, _, _⟩ := dequeue_pos hI hpos
      rw [Dequeue] at heq
      rw [heq2] at heq
      simp at heq
    · intro h0
      exact ⟨q, dequeue_empty hI h0⟩

/-- C10 witness: one reachable non-empty state and the fresh empty state. -/
theorem C10_nonempty_success_witness :
    (0 < (⟨2, [[8]], 1, 0, 0, 0⟩ : Queue Int).len →
      (⟨2, [[8]], 1, 0, 0, 0⟩ : Queue Int).items ≠ []
      ∧ (⟨2, [[8]], 1, 0, 0, 0⟩ : Queue Int).items.getD 0 [] ≠ []
      ∧ ∃ v q', Dequeue (⟨2, [[8]], 1, 0, 0, 0⟩ : Queue Int) = some (some v, q'))
    ∧ ((∃ q2, Dequeue (⟨2, [[8]], 1, 0, 0, 0⟩ : Queue Int) = some (none, q2))
        ↔ (⟨2, [[8]], 1, 0, 0, 0⟩ : Queue Int).len = 0) :=
  C10_nonempty_success 2 [Op.enq 8] _ (by decide)

/-- C5: enqueue algorithm — on every reachable queue with non-negative
configured capacity, `Enqueue` never fails and increments the length by 1;
if the chunk sequence is empty or the write index equals the number of
chunks it appends a new chunk holding only the item (allocated with the
configured capacity normalized to a minimum of 1), otherwise it appends
the item to the chunk at the write index. -/
theorem C5_enqueue_algorithm {α : Type} (cap : Int) (hcap : 0 ≤ cap)
    (ops : List (Op α)) (q : Queue α) (h : runOps (mkQueue α cap) ops = some q)
    (x : α) :
    ∃ q', Enqueue q x = some q' ∧ q'.len = q.len + 1
      ∧ (if q.items.length = 0 ∨ q.items.length = q.w
          then q'.items = q.items ++ [[x]]
          else q'.items = q.items.set q.w (q.items.getD q.w [] ++ [x]))
      ∧ newSliceCap q.Capacity = max q.Capacity 1 := by
  obtain ⟨hI, hC⟩ := runOps_inv (inv_mkQueue α cap) h
  have hC' : q.Capacity = cap := hC
  have hcap' : 0 ≤ q.Capacity := by rw [hC']; exact hcap
  have hmax : newSliceCap q.Capacity = max q.Capacity 1 := by
    rw [newSliceCap]
    split
    · rename_i hc0
      omega
    · rename_i hc0
      omega
  by_cases hcond : q.items.length = 0 ∨ q.items.length = q.w
  · have hns : newSlice q x = some [x] := by
      rw [newSlice, if_neg (by omega)]
    refine ⟨{ q with items := q.items ++ [[x]], len := q.len + 1 }, ?_, rfl, ?_, hmax⟩
    · rw [Enqueue, if_pos hcond, hns]
      rfl
    · rw [if_pos hcond]
  · have hlt : q.w < q.items.length := by
      rcases hI with ⟨hit, _, _, _, _⟩ |
          ⟨hw, _, hry, _, _, _, _⟩ |
          ⟨hit, _, hw, _, _, _⟩ |
          ⟨hit, hryw, _, _, _⟩
      · exact absurd (Or.inl (by simp [hit])) hcond
      · omega
      · exact absurd (Or.inr (by omega)) hcond
      · rcases hryw with ⟨h1, h2⟩ | ⟨h1, h2⟩ <;> omega
    refine ⟨{ q with items := q.items.set q.w (q.items.getD q.w [] ++ [x]), len := q.len + 1 }, ?_, rfl, ?_, hmax⟩
    · rw [Enqueue, if_neg hcond, if_pos hlt]
    · rw [if_neg hcond]

/-- C5 witness: enqueuing on a fresh capacity-0 queue allocates a chunk with
normalized capacity 1. -/
theorem C5_enqueue_algorithm_witness :
    ∃ q', Enqueue (mkQueue Int 0) 9 = some q'
      ∧ q'.len = (mkQueue Int 0).len + 1
      ∧ (if (mkQueue Int 0).items.length = 0
            ∨ (mkQueue Int 0).items.length = (mkQueue Int 0).w
          then q'.items = (mkQueue Int 0).items ++ [[9]]
          else q'.items = (mkQueue Int 0).items.set (mkQueue Int 0).w
            ((mkQueue Int 0).items.getD (mkQueue Int 0).w [] ++ [9]))
      ∧ newSliceCap (mkQueue Int 0).Capacity = max (mkQueue Int 0).Capacity 1 :=
  C5_enqueue_algorithm 0 (by decide) [] (mkQueue Int 0) (by decide) 9

/-- C6: mid-drain write redirection — whenever `dequeue` removes an item that
is not at the last valid index of the read chunk, the read offset increases
by 1, and the write index is redirected exactly when it equals the read
index (to 0 if it was nonzero, to the read index + 1 otherwise); on the
last-index path the write index either is reset to 0 together with the whole
structure (when the queue empties) or is left unchanged. -/
theorem C6_write_redirection {α : Type} (q q' : Queue α) (v : α)
    (h : dequeue q = some (some v, q')) :
    ((q.items.getD q.ry []).length ≠ q.rx + 1 →
      q'.rx = q.rx + 1
      ∧ q'.w = (if q.w = q.ry then (if 0 < q.w then 0 else q.ry + 1) else q.w))
    ∧ ((q.items.getD q.ry []).length = q.rx + 1 →
      (q.len - 1 = 0 ∧ q'.w = 0) ∨ (q.len - 1 ≠ 0 ∧ q'.w = q.w)) := by
  rw [dequeue] at h
  split at h
  · simp at h
  · split at h
    · simp at h
    · rename_i chunk hchunk
      have hD : q.items.getD q.ry [] = chunk := by
        simp [List.getD_eq_getElem?_getD, ← List.get?_eq_getElem?, hchunk]
      split at h
      · simp at h
      · split at h
        · simp at h
        · rename_i val hval
          split at h
          · rename_i hlast
            split at h
            · rename_i hz
              simp only [Option.some.injEq, Prod.mk.injEq] at h
              obtain ⟨hv, hq'⟩ := h
              subst hq'
              constructor
              · intro hne
                rw [hD] at hne
                exact absurd hlast hne
              · intro _
                left
                exact ⟨hz, rfl⟩
            · rename_i hz
              simp only [Option.some.injEq, Prod.mk.injEq] at h
              obtain ⟨hv, hq'⟩ := h
              subst hq'
              constructor
              · intro hne
                rw [hD] at hne
                exact absurd hlast hne
              · intro _
                right
                exact ⟨hz, rfl⟩
          · rename_i hlast
            simp only [Option.some.injEq, Prod.mk.injEq] at h
            obtain ⟨hv, hq'⟩ := h
            subst hq'
            constructor
            · intro _
              exact ⟨rfl, rfl⟩
            · intro heq
              rw [hD] at heq
              exact absurd heq hlast

/-- C6 witness: dequeuing the first of two items in a single shared chunk
advances the read offset and redirects the write index to 1. -/
theorem C6_write_redirection_witness :
    (((⟨5, [[1, 2]], 2, 0, 0, 0⟩ : Queue Int).items.getD 0 []).length ≠ 0 + 1 →
      (⟨5, [[1, 2]], 1, 1, 0, 1⟩ : Queue Int).rx = 0 + 1
      ∧ (⟨5, [[1, 2]], 1, 1, 0, 1⟩ : Queue Int).w
          = (if (0 : Nat) = 0 then (if (0 : Nat) < 0 then 0 else 0 + 1) else 0))
    ∧ (((⟨5, [[1, 2]], 2, 0, 0, 0⟩ : Queue Int).items.getD 0 []).length = 0 + 1 →
      ((⟨5, [[1, 2]], 2, 0, 0, 0⟩ : Queue Int).len - 1 = 0
          ∧ (⟨5, [[1, 2]], 1, 1, 0, 1⟩ : Queue Int).w = 0)
        ∨ ((⟨5, [[1, 2]], 2, 0, 0, 0⟩ : Queue Int).len - 1 ≠ 0
          ∧ (⟨5, [[1, 2]], 1, 1, 0, 1⟩ : Queue Int).w = 0)) :=
  C6_write_redirection (⟨5, [[1, 2]], 2, 0, 0, 0⟩ : Queue Int)
    (⟨5, [[1, 2]], 1, 1, 0, 1⟩ : Queue Int) 1 (by decide)

/-- C7: blocking dequeue refines non-blocking dequeue — from any state with
positive length, `DequeueBlocking` skips the polling loop entirely and
returns the same item and successor state as `Dequeue` would, for every
timeout, interval, timer behaviour, environment and fuel. -/
theorem C7_blocking_refines {α : Type} (q : Queue α) (hq : 0 < q.len)
    (timeout interval : Int) (elapsed : Nat → Bool) (env : Nat → Queue α)
    (fuel : Nat) :
    DequeueBlocking timeout interval elapsed env (fuel + 1) q
      = (match Dequeue q with
          | none => BlockResult.fault
          | some (v, q') => BlockResult.value v q') := by
  rw [DequeueBlocking]
  rw [dequeueBlockingLoop]
  rw [if_neg (by omega)]
  rfl

/-- C7 witness: a one-element queue, zero timeout and interval. -/
theorem C7_blocking_refines_witness :
    0 < (⟨0, [[5]], 1, 0, 0, 0⟩ : Queue Int).len
    ∧ DequeueBlocking 0 0 (fun _ => false) (fun _ => mkQueue Int 0) 1
        (⟨0, [[5]], 1, 0, 0, 0⟩ : Queue Int)
      = (match Dequeue (⟨0, [[5]], 1, 0, 0, 0⟩ : Queue Int) with
          | none => BlockResult.fault
          | some (v, q') => BlockResult.value v q') :=
  ⟨by decide, C7_blocking_refines _ (by decide) 0 0 _ _ 0⟩


/-! ## The polling loop on a queue that stays empty -/

theorem loop_empty_cases {α : Type} (timeout : Int) (hT : 0 < timeout)
    (elapsed : Nat → Bool) (env : Nat → Queue α) (henv : ∀ j, (env j).len = 0) :
    ∀ (fuel k : Nat) (q : Queue α), q.len = 0 →
      (dequeueBlockingLoop timeout elapsed env fuel k q = BlockResult.timedOut
          ∧ ∃ j, elapsed j = true)
        ∨ dequeueBlockingLoop timeout elapsed env fuel k q = BlockResult.running := by
  intro fuel
  induction fuel with
  | zero =>
    intro k q hq
    right
    rfl
  | succ fuel ih =>
    intro k q hq
    rw [dequeueBlockingLoop, if_pos hq]
    by_cases he : elapsed k
    · left
      rw [if_pos ⟨hT, he⟩]
      exact ⟨rfl, k, he⟩
    · rw [if_neg (fun hcon => he hcon.2)]
      exact ih (k + 1) (env k) (henv k)

theorem loop_terminates {α : Type} (timeout : Int) (hT : 0 < timeout)
    (elapsed : Nat → Bool) (env : Nat → Queue α) (henv : ∀ j, (env j).len = 0) :
    ∀ (n k : Nat) (q : Queue α), q.len = 0 → elapsed (k + n) = true →
      ∃ fuel, dequeueBlockingLoop timeout elapsed env fuel k q
        = BlockResult.timedOut := by
  intro n
  induction n with
  | zero =>
    intro k q hq he
    refine ⟨1, ?_⟩
    rw [dequeueBlockingLoop, if_pos hq, if_pos ⟨hT, by simpa using he⟩]
  | succ n ih =>
    intro k q hq he
    by_cases hek : elapsed k
    · exact ⟨1, by rw [dequeueBlockingLoop, if_pos hq, if_pos ⟨hT, hek⟩]⟩
    · obtain ⟨fuel, hf⟩ := ih (k + 1) (env k) (henv k)
        (by rw [show k + 1 + n = k + (n + 1) by omega]; exact he)
      refine ⟨fuel + 1, ?_⟩
      rw [dequeueBlockingLoop, if_pos hq, if_neg (fun hcon => hek hcon.2)]
      exact hf

/-- C8: timeout bound of blocking dequeue — with a positive timeout and a
non-negative interval, on a queue that remains empty `DequeueBlocking` can
only return the empty sentinel at a poll where the deadline timer had
elapsed (never from any other path), and once the timer fires it does
return the sentinel after finitely many polls instead of waiting forever. -/
theorem C8_timeout_bound {α : Type} (timeout interval : Int) (hT : 0 < timeout)
    (hI : 0 ≤ interval) (elapsed : Nat → Bool) (env : Nat → Queue α)
    (q : Queue α) (hq : q.len = 0) (henv : ∀ j, (env j).len = 0) :
    (∀ fuel, DequeueBlocking timeout interval elapsed env fuel q
        = BlockResult.timedOut → ∃ j, elapsed j = true)
    ∧ (∀ fuel, DequeueBlocking timeout interval elapsed env fuel q
          = BlockResult.timedOut
        ∨ DequeueBlocking timeout interval elapsed env fuel q
          = BlockResult.running)
    ∧ ((∃ n, elapsed n = true) →
        ∃ fuel, DequeueBlocking timeout interval elapsed env fuel q
          = BlockResult.timedOut) := by
  refine ⟨?_, ?_, ?_⟩
  · intro fuel hto
    rcases loop_empty_cases timeout hT elapsed env henv fuel 0 q hq with
        ⟨_, hj⟩ | hrun
    · exact hj
    · rw [DequeueBlocking] at hto
      rw [hto] at hrun
      simp at hrun
  · intro fuel
    rcases loop_empty_cases timeout hT elapsed env henv fuel 0 q hq with
        ⟨hto, _⟩ | hrun
    · exact Or.inl hto
    · exact Or.inr hrun
  · rintro ⟨n, hn⟩
    obtain ⟨fuel, hf⟩ := loop_terminates timeout hT elapsed env henv n 0 q hq
      (by simpa using hn)
    exact ⟨fuel, hf⟩

/-- C8 witness: timer that fires from the second poll on, queue always
empty. -/
theorem C8_timeout_bound_witness :
    (∀ fuel, DequeueBlocking 5 0 (fun k => decide (1 ≤ k))
          (fun _ => mkQueue Int 0) fuel (mkQueue Int 0)
        = BlockResult.timedOut → ∃ j, decide (1 ≤ j) = true)
    ∧ (∀ fuel, DequeueBlocking 5 0 (fun k => decide (1 ≤ k))
          (fun _ => mkQueue Int 0) fuel (mkQueue Int 0)
          = BlockResult.timedOut
        ∨ DequeueBlocking 5 0 (fun k => decide (1 ≤ k))
          (fun _ => mkQueue Int 0) fuel (mkQueue Int 0)
          = BlockResult.running)
    ∧ ((∃ n, decide (1 ≤ n) = true) →
        ∃ fuel, DequeueBlocking 5 0 (fun k => decide (1 ≤ k))
          (fun _ => mkQueue Int 0) fuel (mkQueue Int 0)
          = BlockResult.timedOut) :=
  C8_timeout_bound 5 0 (by decide) (by decide) (fun k => decide (1 ≤ k))
    (fun _ => mkQueue Int 0) (mkQueue Int 0) rfl (fun _ => rfl)


end Conq
